import Mathlib

/-!
Shallow embedding of the Arduino TFT clock sketch (src/Clock/Clock.ino).

The sketch keeps a flat record `nowInfo` of three text fields, a serial
line buffer `incoming`, and two flags `hasValidTime` / `needsRedraw`.
Strings are modelled as `List Char`; Arduino `String.indexOf` /
`String.substring` are modelled faithfully, including the `-1` not-found
result and the clamping/swapping behaviour of `substring`.  Serial output
(`Serial.print` lines) is modelled as an append-only `log`, and calls to
`updateDisplay` are recorded in `displays`.
-/

namespace Clock

/-- The `DateTimeInfo` struct of the sketch: three text fields. -/
structure DateTimeInfo where
  time : List Char
  date : List Char
  weekday : List Char
deriving DecidableEq, Repr

/-- The global mutable state of the sketch, plus the observable outputs:
`log` records every `Serial.println` line emitted after setup, `displays`
records the value of `nowInfo` at each `updateDisplay` call. -/
structure ClockState where
  nowInfo : DateTimeInfo
  incoming : List Char
  hasValidTime : Bool
  needsRedraw : Bool
  displays : List DateTimeInfo
  log : List (List Char)
deriving DecidableEq, Repr

/-- State right after `setup()`: empty strings, both flags false. -/
def initialState : ClockState :=
  { nowInfo := ⟨[], [], []⟩
    incoming := []
    hasValidTime := false
    needsRedraw := false
    displays := []
    log := [] }

/-- Index of the first occurrence of `c`, or `none`.  Helper for `indexOf`. -/
def idxOf? (c : Char) : List Char → Option Nat
  | [] => none
  | x :: xs => if x = c then some 0 else (idxOf? c xs).map (· + 1)

/-- Arduino `String::indexOf(ch, fromIndex)`: position of the first
occurrence of `c` at or after `fromIndex`, or `-1` when absent. -/
def indexOf (s : List Char) (c : Char) (fromIndex : Nat) : Int :=
  match idxOf? c (s.drop fromIndex) with
  | some i => ((fromIndex + i : Nat) : Int)
  | none => -1

/-- Arduino `String::substring(left, right)`: characters in `[left, right)`,
with the arguments swapped when out of order and clamped to the length. -/
def substring (s : List Char) (left right : Nat) : List Char :=
  (s.take (max left right)).drop (min left right)

/-- Arduino `String::substring(left)`: suffix from `left` to the end. -/
def substringFrom (s : List Char) (left : Nat) : List Char :=
  substring s left s.length

/-- `processIncoming(msg)`: find the two commas; on failure log the bad
message and leave the state alone; on success overwrite `nowInfo`
wholesale, set both flags, and log the three parsed fields. -/
def processIncoming (msg : List Char) (st : ClockState) : ClockState :=
  let firstComma : Int := indexOf msg ',' 0
  let secondComma : Int := indexOf msg ',' (firstComma + 1).toNat
  if firstComma = -1 ∨ secondComma = -1 then
    { st with log := st.log ++ ["Bad message format: ".data ++ msg] }
  else
    let t := substring msg 0 firstComma.toNat
    let d := substring msg (firstComma.toNat + 1) secondComma.toNat
    let w := substringFrom msg (secondComma.toNat + 1)
    { st with
      nowInfo := ⟨t, d, w⟩
      hasValidTime := true
      needsRedraw := true
      log := st.log ++
        ["Parsed time: ".data ++ t,
         "Parsed date: ".data ++ d,
         "Parsed weekday: ".data ++ w] }

/-- The pure parsing core of `processIncoming`: the new `nowInfo` when the
message has two commas, `none` otherwise. -/
def parseLine (msg : List Char) : Option DateTimeInfo :=
  let firstComma : Int := indexOf msg ',' 0
  let secondComma : Int := indexOf msg ',' (firstComma + 1).toNat
  if firstComma = -1 ∨ secondComma = -1 then none
  else some
    ⟨substring msg 0 firstComma.toNat,
     substring msg (firstComma.toNat + 1) secondComma.toNat,
     substringFrom msg (secondComma.toNat + 1)⟩

/-- `readSerialMessage()`: consume the available bytes one at a time;
`'\n'` ends a message (process the buffer, then clear it), `'\r'` is
ignored, anything else is appended to the buffer. -/
def readSerialMessage (bytes : List Char) (st : ClockState) : ClockState :=
  match bytes with
  | [] => st
  | c :: rest =>
    if c = '\n' then
      readSerialMessage rest { processIncoming st.incoming st with incoming := [] }
    else if c = '\r' then
      readSerialMessage rest st
    else
      readSerialMessage rest { st with incoming := st.incoming ++ [c] }

/-- `updateDisplay()`: redraw with the current `nowInfo` (recorded in
`displays`) and emit the four debug lines. -/
def updateDisplay (st : ClockState) : ClockState :=
  { st with
    displays := st.displays ++ [st.nowInfo]
    log := st.log ++
      ["Updating display with new DateTimeInfo...".data,
       "Time: ".data ++ st.nowInfo.time,
       "Date: ".data ++ st.nowInfo.date,
       "Weekday: ".data ++ st.nowInfo.weekday] }

/-- One iteration of `loop()`, given the bytes available on serial during
this iteration: poll input, then redraw once if both flags are set. -/
def loopStep (avail : List Char) (st : ClockState) : ClockState :=
  let st1 := readSerialMessage avail st
  if st1.needsRedraw && st1.hasValidTime then
    { updateDisplay st1 with needsRedraw := false }
  else
    st1

/-- Run the control loop over a whole schedule of per-iteration inputs. -/
def run (chunks : List (List Char)) (st : ClockState) : ClockState :=
  chunks.foldl (fun s a => loopStep a s) st

/-- Feed a list of already-delimited messages through `processIncoming`. -/
def processList (msgs : List (List Char)) (st : ClockState) : ClockState :=
  msgs.foldl (fun s m => processIncoming m s) st

/-- The parse-relevant core of the state: the parsed record, the validity
flag and the line buffer (everything except outputs and the dirty flag). -/
def coreOf (st : ClockState) : DateTimeInfo × Bool × List Char :=
  (st.nowInfo, st.hasValidTime, st.incoming)

/-- Modelled from the spec (section 6, External Interfaces): a line of the
documented protocol format `HH:MM,YYYY-MM-DD,WeekdayName` — two-digit hour
and minute separated by a colon, an ISO date, then a nonempty alphabetic
weekday name, the three fields separated by commas. -/
def specLineFormat : List Char → Bool
  | h1 :: h2 :: cl :: m1 :: m2 :: k1 :: y1 :: y2 :: y3 :: y4 :: s1 :: o1 :: o2 :: s2 :: e1 :: e2 :: k2 :: w =>
      h1.isDigit && h2.isDigit && (cl == ':') && m1.isDigit && m2.isDigit &&
      (k1 == ',') && y1.isDigit && y2.isDigit && y3.isDigit && y4.isDigit &&
      (s1 == '-') && o1.isDigit && o2.isDigit && (s2 == '-') &&
      e1.isDigit && e2.isDigit && (k2 == ',') &&
      (decide (w ≠ [])) && w.all (fun c => c.isAlpha)
  | _ => false

/-- Reference splitter: cut a byte stream at `'\n'`, dropping `'\r'`,
returning the complete lines and the unterminated tail. -/
def lineSplit : List Char → List (List Char) × List Char
  | [] => ([], [])
  | c :: cs =>
    let p := lineSplit cs
    if c = '\n' then ([] :: p.1, p.2)
    else if c = '\r' then p
    else
      match p.1 with
      | [] => ([], c :: p.2)
      | l :: ls => ((c :: l) :: ls, p.2)

/-! ### Helper lemmas about `idxOf?` and `indexOf` -/

theorem idxOf?_eq_none_iff (c : Char) (s : List Char) : idxOf? c s = none ↔ c ∉ s := by
  induction s with
  | nil => simp [idxOf?]
  | cons x xs ih =>
    by_cases hx : x = c
    · simp [idxOf?, hx]
    · simp [idxOf?, hx, Option.map_eq_none, ih, List.mem_cons]
      intro h
      exact fun h2 => hx h2.symm

theorem idxOf?_append_left (c : Char) (t r : List Char) (ht : c ∉ t) :
    idxOf? c (t ++ c :: r) = some t.length := by
  induction t with
  | nil => simp [idxOf?]
  | cons x xs ih =>
    have hx : x ≠ c := fun h => ht (h ▸ List.mem_cons_self x xs)
    have hxs : c ∉ xs := fun h => ht (List.mem_cons_of_mem x h)
    simp [idxOf?, hx, ih hxs]

theorem idxOf?_some_decomp (c : Char) (s : List Char) (i : Nat) (h : idxOf? c s = some i) :
    ∃ t r, s = t ++ c :: r ∧ c ∉ t ∧ t.length = i := by
  induction s generalizing i with
  | nil => simp [idxOf?] at h
  | cons x xs ih =>
    by_cases hx : x = c
    · subst hx
      simp [idxOf?] at h
      exact ⟨[], xs, by simp, by simp, by simpa using h⟩
    · simp [idxOf?, hx] at h
      obtain ⟨j, hj, hji⟩ := h
      obtain ⟨t, r, hs, hct, hlen⟩ := ih j hj
      refine ⟨x :: t, r, by simp [hs], ?_, by simp [hlen, hji]⟩
      intro hmem
      rcases List.mem_cons.mp hmem with h1 | h2
      · exact hx h1.symm
      · exact hct h2

theorem idxOf?_lt_length (c : Char) (s : List Char) (i : Nat) (h : idxOf? c s = some i) :
    i < s.length := by
  obtain ⟨t, r, hs, _, hlen⟩ := idxOf?_some_decomp c s i h
  subst hs
  simp [← hlen]

theorem drop_append_cons (t r : List Char) (c : Char) :
    (t ++ c :: r).drop (t.length + 1) = r := by
  have h : t ++ c :: r = (t ++ [c]) ++ r := by simp
  rw [h, List.drop_left' (by simp)]

/-- Location of the first comma in a three-segment line. -/
theorem indexOf_first (t d w : List Char) (ht : ',' ∉ t) :
    indexOf (t ++ ',' :: (d ++ ',' :: w)) ',' 0 = (t.length : Int) := by
  unfold indexOf
  rw [List.drop_zero, idxOf?_append_left ',' t (d ++ ',' :: w) ht]
  simp

/-- Location of the second comma in a three-segment line. -/
theorem indexOf_second (t d w : List Char) (hd : ',' ∉ d) :
    indexOf (t ++ ',' :: (d ++ ',' :: w)) ',' (t.length + 1) =
      ((t.length + 1 + d.length : Nat) : Int) := by
  unfold indexOf
  rw [drop_append_cons, idxOf?_append_left ',' d w hd]

/-! ### Helper lemmas about `substring` -/

theorem substring_first (t r s : List Char) (n : Nat) (hs : s = t ++ r) (hn : n = t.length) :
    substring s 0 n = t := by
  subst hs hn
  unfold substring
  have hmin : min 0 t.length = 0 := by omega
  have hmax : max 0 t.length = t.length := by omega
  rw [hmin, hmax, List.take_left, List.drop_zero]

theorem substring_mid (p d r s : List Char) (a b : Nat) (hs : s = (p ++ d) ++ r)
    (ha : a = p.length) (hb : b = p.length + d.length) :
    substring s a b = d := by
  subst hs ha hb
  unfold substring
  have hmin : min p.length (p.length + d.length) = p.length := by omega
  have hmax : max p.length (p.length + d.length) = p.length + d.length := by omega
  rw [hmin, hmax, List.take_left' (by simp), List.drop_left]

theorem substringFrom_last (p w s : List Char) (n : Nat) (hs : s = p ++ w) (hn : n = p.length) :
    substringFrom s n = w := by
  subst hs hn
  unfold substringFrom substring
  have hmin : min p.length (p ++ w).length = p.length := by
    rw [List.length_append]; omega
  have hmax : max p.length (p ++ w).length = (p ++ w).length := by
    rw [List.length_append]; omega
  rw [hmin, hmax, List.take_length, List.drop_left]

/-! ### `processIncoming` on a well-formed three-segment line -/

theorem processIncoming_eq_wellFormed (t d w : List Char) (st : ClockState)
    (ht : ',' ∉ t) (hd : ',' ∉ d) :
    processIncoming (t ++ ',' :: (d ++ ',' :: w)) st =
      { st with
        nowInfo := ⟨t, d, w⟩
        hasValidTime := true
        needsRedraw := true
        log := st.log ++
          ["Parsed time: ".data ++ t,
           "Parsed date: ".data ++ d,
           "Parsed weekday: ".data ++ w] } := by
  have h0 : ((t.length : Int)).toNat = t.length := by omega
  have h1 : (((t.length : Int)) + 1).toNat = t.length + 1 := by omega
  have hno : ¬((t.length : Int) = -1 ∨ ((t.length + 1 + d.length : Nat) : Int) = -1) := by
    omega
  have htoN : ((t.length + 1 + d.length : Nat) : Int).toNat = t.length + 1 + d.length := by
    omega
  have hT : substring (t ++ ',' :: (d ++ ',' :: w)) 0 t.length = t :=
    substring_first t (',' :: (d ++ ',' :: w)) _ _ rfl rfl
  have hD : substring (t ++ ',' :: (d ++ ',' :: w)) (t.length + 1) (t.length + 1 + d.length) = d :=
    substring_mid (t ++ [',']) d (',' :: w) _ _ _ (by simp)
      (by simp) (by simp)
  have hW : substringFrom (t ++ ',' :: (d ++ ',' :: w)) (t.length + 1 + d.length + 1) = w :=
    substringFrom_last ((t ++ [',']) ++ d ++ [',']) w _ _ (by simp)
      (by simp; omega)
  simp only [processIncoming, indexOf_first t d w ht, h0, h1, indexOf_second t d w hd,
    if_neg hno, htoN, hT, hD, hW]

/-! ### Comma-count characterization of acceptance -/

theorem idxOf?_mem (c : Char) (s : List Char) (i : Nat) (h : idxOf? c s = some i) :
    c ∈ s := by
  obtain ⟨t, r, hs, _, _⟩ := idxOf?_some_decomp c s i h
  subst hs
  simp

theorem commas_found_of_two (msg : List Char) (h : 2 ≤ msg.count ',') :
    ¬(indexOf msg ',' 0 = -1) ∧
      ¬(indexOf msg ',' ((indexOf msg ',' 0) + 1).toNat = -1) := by
  have hmem : ',' ∈ msg := by
    rcases List.count_pos_iff.mp (by omega : 0 < msg.count ',') with hm
    exact hm
  obtain ⟨i, hq⟩ : ∃ i, idxOf? ',' msg = some i := by
    cases he : idxOf? ',' msg with
    | none => exact absurd hmem ((idxOf?_eq_none_iff ',' msg).mp he)
    | some i => exact ⟨i, rfl⟩
  obtain ⟨t, r, hs, hnt, hlen⟩ := idxOf?_some_decomp ',' msg i hq
  have hfirst : indexOf msg ',' 0 = ((i : Nat) : Int) := by
    unfold indexOf
    rw [List.drop_zero, hq]
    simp
  have htoN : (((i : Nat) : Int) + 1).toNat = i + 1 := by omega
  have hdrop : msg.drop (i + 1) = r := by
    rw [hs, ← hlen]
    exact drop_append_cons t r ','
  have hcnt : msg.count ',' = t.count ',' + 1 + r.count ',' := by
    rw [hs]
    simp [List.count_append, List.count_cons]
    omega
  have ht0 : t.count ',' = 0 := List.count_eq_zero.mpr hnt
  have hrmem : ',' ∈ r := by
    have : 0 < r.count ',' := by omega
    exact List.count_pos_iff.mp this
  obtain ⟨j, hq2⟩ : ∃ j, idxOf? ',' r = some j := by
    cases he : idxOf? ',' r with
    | none => exact absurd hrmem ((idxOf?_eq_none_iff ',' r).mp he)
    | some j => exact ⟨j, rfl⟩
  have hsecond : indexOf msg ',' (i + 1) = ((i + 1 + j : Nat) : Int) := by
    unfold indexOf
    rw [hdrop, hq2]
  constructor
  · rw [hfirst]; omega
  · rw [hfirst, htoN, hsecond]; omega

theorem commas_two_of_found (msg : List Char)
    (h1 : ¬(indexOf msg ',' 0 = -1))
    (h2 : ¬(indexOf msg ',' ((indexOf msg ',' 0) + 1).toNat = -1)) :
    2 ≤ msg.count ',' := by
  obtain ⟨i, hq⟩ : ∃ i, idxOf? ',' msg = some i := by
    cases he : idxOf? ',' msg with
    | none =>
      exfalso
      apply h1
      unfold indexOf
      rw [List.drop_zero, he]
    | some i => exact ⟨i, rfl⟩
  obtain ⟨t, r, hs, hnt, hlen⟩ := idxOf?_some_decomp ',' msg i hq
  have hfirst : indexOf msg ',' 0 = ((i : Nat) : Int) := by
    unfold indexOf
    rw [List.drop_zero, hq]
    simp
  have htoN : (((i : Nat) : Int) + 1).toNat = i + 1 := by omega
  have hdrop : msg.drop (i + 1) = r := by
    rw [hs, ← hlen]
    exact drop_append_cons t r ','
  rw [hfirst, htoN] at h2
  obtain ⟨j, hq2⟩ : ∃ j, idxOf? ',' r = some j := by
    cases he : idxOf? ',' r with
    | none =>
      exfalso
      apply h2
      unfold indexOf
      rw [hdrop, he]
    | some j => exact ⟨j, rfl⟩
  have hrmem : ',' ∈ r := idxOf?_mem ',' r j hq2
  have hcnt : msg.count ',' = t.count ',' + 1 + r.count ',' := by
    rw [hs]
    simp [List.count_append, List.count_cons]
    omega
  have hr : 0 < r.count ',' := List.count_pos_iff.mpr hrmem
  omega

theorem parseLine_isSome_iff (msg : List Char) :
    (parseLine msg).isSome = true ↔ 2 ≤ msg.count ',' := by
  constructor
  · intro h
    by_cases hc : indexOf msg ',' 0 = -1 ∨
        indexOf msg ',' ((indexOf msg ',' 0) + 1).toNat = -1
    · exfalso
      unfold parseLine at h
      simp [hc] at h
    · exact commas_two_of_found msg (not_or.mp hc).1 (not_or.mp hc).2
  · intro h
    obtain ⟨h1, h2⟩ := commas_found_of_two msg h
    unfold parseLine
    simp [h1, h2]

/-- `processIncoming` is `parseLine` plus the state/log updates. -/
theorem processIncoming_eq_parseLine (msg : List Char) (st : ClockState) :
    processIncoming msg st =
      match parseLine msg with
      | none => { st with log := st.log ++ ["Bad message format: ".data ++ msg] }
      | some info =>
        { st with
          nowInfo := info
          hasValidTime := true
          needsRedraw := true
          log := st.log ++
            ["Parsed time: ".data ++ info.time,
             "Parsed date: ".data ++ info.date,
             "Parsed weekday: ".data ++ info.weekday] } := by
  unfold processIncoming parseLine
  by_cases hc : indexOf msg ',' 0 = -1 ∨
      indexOf msg ',' ((indexOf msg ',' 0) + 1).toNat = -1
  · simp [hc]
  · simp [hc]

/-! ### Claim theorems -/

/-- C1: for every well-formed input line — three comma-delimited segments,
the first two comma-free — `processIncoming` stores the segment before the
first comma in `nowInfo.time`, the segment strictly between the commas in
`nowInfo.date`, and everything after the second comma in `nowInfo.weekday`,
sets `hasValidTime` and `needsRedraw`, and the next `loop` iteration
performs the redraw with exactly that record. -/
theorem processIncoming_wellFormed_parses (t d w : List Char) (st : ClockState)
    (ht : ',' ∉ t) (hd : ',' ∉ d) :
    (processIncoming (t ++ ',' :: (d ++ ',' :: w)) st).nowInfo = ⟨t, d, w⟩ ∧
    (processIncoming (t ++ ',' :: (d ++ ',' :: w)) st).hasValidTime = true ∧
    (processIncoming (t ++ ',' :: (d ++ ',' :: w)) st).needsRedraw = true ∧
    (loopStep [] (processIncoming (t ++ ',' :: (d ++ ',' :: w)) st)).displays =
      st.displays ++ [⟨t, d, w⟩] := by
  rw [processIncoming_eq_wellFormed t d w st ht hd]
  refine ⟨rfl, rfl, rfl, ?_⟩
  simp [loopStep, readSerialMessage, updateDisplay]

/-- Witness for C1 at the spec's example line `"14:37,2025-12-11,Thursday"`. -/
theorem processIncoming_wellFormed_parses_example :
    (processIncoming ("14:37".data ++ ',' :: ("2025-12-11".data ++ ',' :: "Thursday".data))
        initialState).nowInfo = ⟨"14:37".data, "2025-12-11".data, "Thursday".data⟩ ∧
    (processIncoming ("14:37".data ++ ',' :: ("2025-12-11".data ++ ',' :: "Thursday".data))
        initialState).hasValidTime = true ∧
    (processIncoming ("14:37".data ++ ',' :: ("2025-12-11".data ++ ',' :: "Thursday".data))
        initialState).needsRedraw = true ∧
    (loopStep [] (processIncoming
        ("14:37".data ++ ',' :: ("2025-12-11".data ++ ',' :: "Thursday".data))
        initialState)).displays =
      initialState.displays ++ [⟨"14:37".data, "2025-12-11".data, "Thursday".data⟩] :=
  processIncoming_wellFormed_parses "14:37".data "2025-12-11".data "Thursday".data
    initialState (by decide) (by decide)

/-- C2: for a line with fewer than two commas `processIncoming` only appends
the bad-message log line; `nowInfo`, `hasValidTime`, `needsRedraw` and the
buffer keep their previous values, so no redraw is triggered by that line. -/
theorem processIncoming_malformed_noChange (msg : List Char) (st : ClockState)
    (h : msg.count ',' < 2) :
    processIncoming msg st =
      { st with log := st.log ++ ["Bad message format: ".data ++ msg] } := by
  have hp : parseLine msg = none := by
    cases hq : parseLine msg with
    | none => rfl
    | some i =>
      have h2 := (parseLine_isSome_iff msg).mp (by rw [hq]; rfl)
      omega
  rw [processIncoming_eq_parseLine, hp]

/-- Witness for C2 on a line with no comma at all. -/
theorem processIncoming_malformed_noChange_example :
    processIncoming "1200 Thursday".data initialState =
      { initialState with
        log := initialState.log ++ ["Bad message format: ".data ++ "1200 Thursday".data] } :=
  processIncoming_malformed_noChange "1200 Thursday".data initialState (by decide)

/-- C4 counterexample: the line `"a,b,c"` does not match the documented
`HH:MM,YYYY-MM-DD,WeekdayName` protocol format, yet `processIncoming`
accepts and parses it (acceptance checks only the two commas). -/
theorem accepted_line_not_matching_format :
    (processIncoming "a,b,c".data initialState).hasValidTime = true ∧
    specLineFormat "a,b,c".data = false := by decide

/-- C4 (amended): starting from a state with no valid time yet, a received
line is accepted and parsed exactly when it contains at least two commas;
the shapes of the three fields are not validated at all. -/
theorem accepted_iff_two_commas (msg : List Char) (st : ClockState)
    (h : st.hasValidTime = false) :
    ((processIncoming msg st).hasValidTime = true ↔ 2 ≤ msg.count ',') := by
  rw [processIncoming_eq_parseLine]
  cases hq : parseLine msg with
  | none =>
    have h2 := parseLine_isSome_iff msg
    rw [hq] at h2
    simp at h2
    simp [h]
    omega
  | some info =>
    have h2 := (parseLine_isSome_iff msg).mp (by rw [hq]; rfl)
    simp
    omega

/-- Witness for C4 (amended) at the spec's example line. -/
theorem accepted_iff_two_commas_example :
    ((processIncoming "14:37,2025-12-11,Thursday".data initialState).hasValidTime = true ↔
      2 ≤ ("14:37,2025-12-11,Thursday".data).count ',') :=
  accepted_iff_two_commas "14:37,2025-12-11,Thursday".data initialState rfl

/-- C6: processing any line is safe: either a comma is missing and the
reject branch is taken (`parseLine` is `none`), or both comma positions
are strictly inside the message, so every index handed to `substring`
(`firstComma + 1` and `secondComma + 1` included) is at most the length
and the extractions are in bounds. -/
theorem processIncoming_indices_in_bounds (msg : List Char) :
    parseLine msg = none ∨
    (0 ≤ indexOf msg ',' 0 ∧
     indexOf msg ',' 0 < indexOf msg ',' ((indexOf msg ',' 0) + 1).toNat ∧
     indexOf msg ',' ((indexOf msg ',' 0) + 1).toNat < (msg.length : Int) ∧
     (indexOf msg ',' 0).toNat + 1 ≤ msg.length ∧
     (indexOf msg ',' ((indexOf msg ',' 0) + 1).toNat).toNat + 1 ≤ msg.length) := by
  by_cases hc : indexOf msg ',' 0 = -1 ∨
      indexOf msg ',' ((indexOf msg ',' 0) + 1).toNat = -1
  · left
    unfold parseLine
    simp [hc]
  · right
    obtain ⟨i, hq⟩ : ∃ i, idxOf? ',' msg = some i := by
      cases he : idxOf? ',' msg with
      | none =>
        exfalso
        apply (not_or.mp hc).1
        unfold indexOf
        rw [List.drop_zero, he]
      | some i => exact ⟨i, rfl⟩
    obtain ⟨t, r, hs, hnt, hlen⟩ := idxOf?_some_decomp ',' msg i hq
    have hfirst : indexOf msg ',' 0 = ((i : Nat) : Int) := by
      unfold indexOf
      rw [List.drop_zero, hq]
      simp
    have htoN : (((i : Nat) : Int) + 1).toNat = i + 1 := by omega
    have hdrop : msg.drop (i + 1) = r := by
      rw [hs, ← hlen]
      exact drop_append_cons t r ','
    obtain ⟨j, hq2⟩ : ∃ j, idxOf? ',' r = some j := by
      cases he : idxOf? ',' r with
      | none =>
        exfalso
        apply (not_or.mp hc).2
        rw [hfirst, htoN]
        unfold indexOf
        rw [hdrop, he]
      | some j => exact ⟨j, rfl⟩
    have hsecond : indexOf msg ',' (i + 1) = ((i + 1 + j : Nat) : Int) := by
      unfold indexOf
      rw [hdrop, hq2]
    have hjlt : j < r.length := idxOf?_lt_length ',' r j hq2
    have hmlen : msg.length = i + 1 + r.length := by
      rw [hs, ← hlen]
      simp
      omega
    rw [hfirst, htoN, hsecond]
    refine ⟨by omega, by omega, by omega, by omega, by omega⟩

/-- C10: every line with two or more commas — written via its canonical
decomposition `t,d,w` where `t` and `d` are the comma-free segments up to
the first two commas and `w` is arbitrary, so any further commas of the
line lie inside `w` — is accepted as valid, its weekday field receiving
everything after the second comma (`w`, commas included), the other two
fields receiving `t` and `d`, and a redraw is triggered; in particular
`"a,b,c,d"` yields time `"a"`, date `"b"`, weekday `"c,d"`, and the
all-empty line `",,"` yields three empty strings and still redraws. -/
theorem extraCommas_and_emptyFields_accepted (t d w : List Char) (st : ClockState)
    (ht : ',' ∉ t) (hd : ',' ∉ d) :
    (processIncoming (t ++ ',' :: (d ++ ',' :: w)) st).nowInfo.weekday = w ∧
    (processIncoming (t ++ ',' :: (d ++ ',' :: w)) st).nowInfo = ⟨t, d, w⟩ ∧
    (processIncoming (t ++ ',' :: (d ++ ',' :: w)) st).hasValidTime = true ∧
    (processIncoming (t ++ ',' :: (d ++ ',' :: w)) st).needsRedraw = true ∧
    (processIncoming "a,b,c,d".data initialState).nowInfo =
      ⟨"a".data, "b".data, "c,d".data⟩ ∧
    (processIncoming ",,".data initialState).nowInfo = ⟨[], [], []⟩ ∧
    (processIncoming ",,".data initialState).hasValidTime = true ∧
    (processIncoming ",,".data initialState).needsRedraw = true := by
  rw [processIncoming_eq_wellFormed t d w st ht hd]
  exact ⟨rfl, rfl, rfl, rfl, by decide, by decide, by decide, by decide⟩

/-- Witness for C10 at the comma-containing weekday example `"a,b,c,d"`
(`t = "a"`, `d = "b"`, `w = "c,d"`). -/
theorem extraCommas_and_emptyFields_accepted_example :
    (processIncoming ("a".data ++ ',' :: ("b".data ++ ',' :: "c,d".data))
        initialState).nowInfo.weekday = "c,d".data ∧
    (processIncoming ("a".data ++ ',' :: ("b".data ++ ',' :: "c,d".data))
        initialState).nowInfo = ⟨"a".data, "b".data, "c,d".data⟩ ∧
    (processIncoming ("a".data ++ ',' :: ("b".data ++ ',' :: "c,d".data))
        initialState).hasValidTime = true ∧
    (processIncoming ("a".data ++ ',' :: ("b".data ++ ',' :: "c,d".data))
        initialState).needsRedraw = true ∧
    (processIncoming "a,b,c,d".data initialState).nowInfo =
      ⟨"a".data, "b".data, "c,d".data⟩ ∧
    (processIncoming ",,".data initialState).nowInfo = ⟨[], [], []⟩ ∧
    (processIncoming ",,".data initialState).hasValidTime = true ∧
    (processIncoming ",,".data initialState).needsRedraw = true :=
  extraCommas_and_emptyFields_accepted "a".data "b".data "c,d".data initialState
    (by decide) (by decide)

/-! ### The three fields always come wholesale from one line (C3) -/

theorem processIncoming_nowInfo_of_none (m : List Char) (s : ClockState)
    (h : parseLine m = none) : (processIncoming m s).nowInfo = s.nowInfo := by
  rw [processIncoming_eq_parseLine, h]

theorem processIncoming_nowInfo_of_some (m : List Char) (s : ClockState)
    (i : DateTimeInfo) (h : parseLine m = some i) :
    (processIncoming m s).nowInfo = i := by
  rw [processIncoming_eq_parseLine, h]

theorem processIncoming_wholesale (m : List Char) (s : ClockState) :
    (processIncoming m s).nowInfo = s.nowInfo ∨
      parseLine m = some ((processIncoming m s).nowInfo) := by
  cases h : parseLine m with
  | none => exact Or.inl (processIncoming_nowInfo_of_none m s h)
  | some i => exact Or.inr (by rw [processIncoming_nowInfo_of_some m s i h])

/-- C3: after any sequence of messages, `nowInfo` equals the wholesale parse
of the most recent line that parsed successfully, and no step ever updates
one of the three fields without setting all three from the same line
(`processIncoming` either leaves `nowInfo` untouched or replaces it with
the full `parseLine` record of its input). -/
theorem nowInfo_reflects_last_valid_line (msgs : List (List Char)) (st : ClockState)
    (info : DateTimeInfo)
    (h : (msgs.filterMap parseLine).getLast? = some info) :
    (processList msgs st).nowInfo = info ∧
    ∀ m s, (processIncoming m s).nowInfo = s.nowInfo ∨
      parseLine m = some ((processIncoming m s).nowInfo) := by
  refine ⟨?_, fun m s => processIncoming_wholesale m s⟩
  induction msgs using List.reverseRecOn generalizing info with
  | nil => simp at h
  | append_singleton xs m ih =>
    have hstep : processList (xs ++ [m]) st = processIncoming m (processList xs st) := by
      simp [processList, List.foldl_append]
    rw [List.filterMap_append] at h
    cases hp : parseLine m with
    | none =>
      have hm : List.filterMap parseLine [m] = [] := by
        simp [List.filterMap_cons, hp]
      rw [hm, List.append_nil] at h
      rw [hstep, processIncoming_nowInfo_of_none m _ hp]
      exact ih info h
    | some i =>
      have hm : List.filterMap parseLine [m] = [i] := by
        simp [List.filterMap_cons, hp]
      rw [hm, List.getLast?_concat] at h
      have hinfo : i = info := by injection h
      rw [hstep, processIncoming_nowInfo_of_some m _ i hp, hinfo]

/-- Witness for C3: a bad line, a good line, another bad line — `nowInfo`
holds the parse of the good line. -/
theorem nowInfo_reflects_last_valid_line_example :
    (processList ["bad".data, "a,b,c".data, "nope".data] initialState).nowInfo =
        ⟨"a".data, "b".data, "c".data⟩ ∧
    ∀ m s, (processIncoming m s).nowInfo = s.nowInfo ∨
      parseLine m = some ((processIncoming m s).nowInfo) :=
  nowInfo_reflects_last_valid_line ["bad".data, "a,b,c".data, "nope".data]
    initialState ⟨"a".data, "b".data, "c".data⟩ (by decide)

/-! ### Line buffering (C5) -/

theorem processIncoming_set_incoming (m : List Char) (s : ClockState) (x : List Char) :
    processIncoming m { s with incoming := x } =
      { processIncoming m s with incoming := x } := by
  rw [processIncoming_eq_parseLine, processIncoming_eq_parseLine]
  cases parseLine m <;> rfl

theorem processList_set_incoming (ls : List (List Char)) (s : ClockState) (x : List Char) :
    processList ls { s with incoming := x } =
      { processList ls s with incoming := x } := by
  induction ls generalizing s with
  | nil => rfl
  | cons m rest ih =>
    simp only [processList, List.foldl_cons]
    rw [processIncoming_set_incoming]
    exact ih (processIncoming m s)

theorem lineSplit_clean (s : List Char) (hn : '\n' ∉ s) (hr : '\r' ∉ s) :
    lineSplit s = ([], s) := by
  induction s with
  | nil => rfl
  | cons c cs ih =>
    have hc1 : c ≠ '\n' := fun h => hn (h ▸ List.mem_cons_self c cs)
    have hc2 : c ≠ '\r' := fun h => hr (h ▸ List.mem_cons_self c cs)
    have ih2 := ih (fun h => hn (List.mem_cons_of_mem c h))
      (fun h => hr (List.mem_cons_of_mem c h))
    simp [lineSplit, hc1, hc2, ih2]

theorem lineSplit_clean_concat (p s : List Char) (hn : '\n' ∉ p) (hr : '\r' ∉ p) :
    lineSplit (p ++ s) =
      match lineSplit s with
      | ([], rest) => ([], p ++ rest)
      | (l :: ls, rest) => ((p ++ l) :: ls, rest) := by
  induction p with
  | nil =>
    rcases hq : lineSplit s with ⟨a, b⟩
    cases a <;> simp [hq]
  | cons c cs ih =>
    have hc1 : c ≠ '\n' := fun h => hn (h ▸ List.mem_cons_self c cs)
    have hc2 : c ≠ '\r' := fun h => hr (h ▸ List.mem_cons_self c cs)
    have ih2 := ih (fun h => hn (List.mem_cons_of_mem c h))
      (fun h => hr (List.mem_cons_of_mem c h))
    rcases hq : lineSplit s with ⟨a, b⟩
    rw [hq] at ih2
    cases a with
    | nil => simp [lineSplit, hc1, hc2, ih2, hq]
    | cons l ls => simp [lineSplit, hc1, hc2, ih2, hq]

/-- C5: a parse is attempted exactly when a `'\n'` is read.  Reading a
batch of bytes is the same as cutting the (buffer ++ bytes) stream at each
newline, feeding precisely those complete segments to `processIncoming` in
order, and leaving the unterminated tail as the new buffer — so the buffer
is cleared after each message and the newline itself is never passed. -/
theorem readSerial_processes_on_newline (bytes : List Char) (st : ClockState)
    (hn : '\n' ∉ st.incoming) (hr : '\r' ∉ st.incoming) :
    readSerialMessage bytes st =
      { processList (lineSplit (st.incoming ++ bytes)).1 st with
        incoming := (lineSplit (st.incoming ++ bytes)).2 } := by
  induction bytes generalizing st with
  | nil =>
    rw [List.append_nil, lineSplit_clean st.incoming hn hr]
    rfl
  | cons c rest ih =>
    rcases hq : lineSplit rest with ⟨ls, tail⟩
    by_cases hc1 : c = '\n'
    · subst hc1
      have hL : readSerialMessage ('\n' :: rest) st =
          readSerialMessage rest { processIncoming st.incoming st with incoming := [] } := by
        simp [readSerialMessage]
      have hih := ih { processIncoming st.incoming st with incoming := [] }
        (by simp) (by simp)
      rw [hL, hih, List.nil_append, hq]
      have hpre := lineSplit_clean_concat st.incoming ('\n' :: rest) hn hr
      have hnl : lineSplit ('\n' :: rest) = (([] : List Char) :: ls, tail) := by
        simp [lineSplit, hq]
      rw [hnl] at hpre
      rw [hpre]
      rw [processList_set_incoming]
      simp [processList]
    · by_cases hc2 : c = '\r'
      · subst hc2
        have hL : readSerialMessage ('\r' :: rest) st = readSerialMessage rest st := by
          simp [readSerialMessage]
        rw [hL, ih st hn hr]
        have hpre := lineSplit_clean_concat st.incoming ('\r' :: rest) hn hr
        have hnl : lineSplit ('\r' :: rest) = (ls, tail) := by
          simp [lineSplit, hq]
        rw [hnl] at hpre
        have hpre2 := lineSplit_clean_concat st.incoming rest hn hr
        rw [hq] at hpre2
        rw [hpre, hpre2]
      · have hL : readSerialMessage (c :: rest) st =
            readSerialMessage rest { st with incoming := st.incoming ++ [c] } := by
          simp [readSerialMessage, hc1, hc2]
        have hn2 : '\n' ∉ st.incoming ++ [c] := by
          intro h
          rcases List.mem_append.mp h with h1 | h1
          · exact hn h1
          · exact hc1 (List.mem_singleton.mp h1).symm
        have hr2 : '\r' ∉ st.incoming ++ [c] := by
          intro h
          rcases List.mem_append.mp h with h1 | h1
          · exact hr h1
          · exact hc2 (List.mem_singleton.mp h1).symm
        rw [hL, ih _ hn2 hr2]
        have hassoc : (st.incoming ++ [c]) ++ rest = st.incoming ++ c :: rest := by
          simp
        rw [hassoc, processList_set_incoming]

/-- Witness for C5: one complete line followed by an unterminated tail. -/
theorem readSerial_processes_on_newline_example :
    readSerialMessage "12:00,2025-01-01,Wed\nabc".data initialState =
      { processList
          (lineSplit (initialState.incoming ++ "12:00,2025-01-01,Wed\nabc".data)).1
          initialState with
        incoming :=
          (lineSplit (initialState.incoming ++ "12:00,2025-01-01,Wed\nabc".data)).2 } :=
  readSerial_processes_on_newline "12:00,2025-01-01,Wed\nabc".data initialState
    (by decide) (by decide)

/-! ### Determinism and chunking invariance (C7) -/

theorem coreOf_loopStep (a : List Char) (st : ClockState) :
    coreOf (loopStep a st) = coreOf (readSerialMessage a st) := by
  unfold loopStep
  by_cases hc : (readSerialMessage a st).needsRedraw &&
      (readSerialMessage a st).hasValidTime
  · simp [hc, coreOf, updateDisplay]
  · simp [hc]

theorem readSerialMessage_append (a b : List Char) (st : ClockState) :
    readSerialMessage (a ++ b) st = readSerialMessage b (readSerialMessage a st) := by
  induction a generalizing st with
  | nil => rfl
  | cons c rest ih =>
    by_cases hc1 : c = '\n'
    · subst hc1
      simp only [List.cons_append, readSerialMessage, if_pos rfl]
      exact ih _
    · by_cases hc2 : c = '\r'
      · subst hc2
        simp only [List.cons_append, readSerialMessage, if_neg hc1, if_pos rfl]
        exact ih _
      · simp only [List.cons_append, readSerialMessage, if_neg hc1, if_neg hc2]
        exact ih _

theorem coreOf_processIncoming_congr (m : List Char) (s1 s2 : ClockState)
    (h : coreOf s1 = coreOf s2) :
    coreOf (processIncoming m s1) = coreOf (processIncoming m s2) := by
  simp only [coreOf, Prod.mk.injEq] at h
  obtain ⟨h1, h2, h3⟩ := h
  rw [processIncoming_eq_parseLine, processIncoming_eq_parseLine]
  cases parseLine m with
  | none => simp [coreOf, h1, h2, h3]
  | some i => simp [coreOf, h3]

theorem coreOf_readSerial_congr (b : List Char) (s1 s2 : ClockState)
    (h : coreOf s1 = coreOf s2) :
    coreOf (readSerialMessage b s1) = coreOf (readSerialMessage b s2) := by
  induction b generalizing s1 s2 with
  | nil => exact h
  | cons c rest ih =>
    have hinc : s1.incoming = s2.incoming := by
      simp only [coreOf, Prod.mk.injEq] at h
      exact h.2.2
    by_cases hc1 : c = '\n'
    · subst hc1
      simp only [readSerialMessage, if_pos rfl]
      apply ih
      have hp : coreOf (processIncoming s1.incoming s1) =
          coreOf (processIncoming s2.incoming s2) := by
        rw [hinc]
        exact coreOf_processIncoming_congr s2.incoming s1 s2 h
      simp only [coreOf, Prod.mk.injEq] at hp ⊢
      exact ⟨hp.1, hp.2.1, trivial⟩
    · by_cases hc2 : c = '\r'
      · subst hc2
        simp only [readSerialMessage, if_neg hc1, if_pos rfl]
        exact ih s1 s2 h
      · simp only [readSerialMessage, if_neg hc1, if_neg hc2]
        apply ih
        simp only [coreOf, Prod.mk.injEq] at h ⊢
        exact ⟨h.1, h.2.1, by rw [hinc]⟩

theorem run_core_eq_flatten (chunks : List (List Char)) (st : ClockState) :
    coreOf (run chunks st) = coreOf (readSerialMessage chunks.flatten st) := by
  induction chunks generalizing st with
  | nil => rfl
  | cons a rest ih =>
    have h1 : run (a :: rest) st = run rest (loopStep a st) := rfl
    rw [h1, ih (loopStep a st)]
    have h2 : (a :: rest).flatten = a ++ rest.flatten := by simp
    rw [h2, readSerialMessage_append]
    exact coreOf_readSerial_congr rest.flatten _ _ (coreOf_loopStep a st)

/-- C7: the loop is deterministic — its entire final state (including the
recorded display updates and log lines) is a function of the per-iteration
serial input alone; moreover the parse-relevant core of the state
(`nowInfo`, `hasValidTime`, the buffer) depends only on the flat byte
sequence, not on how the bytes are split across loop iterations. -/
theorem loop_deterministic (i1 i2 : List (List Char)) (h : i1 = i2) :
    run i1 initialState = run i2 initialState ∧
    coreOf (run i1 initialState) = coreOf (readSerialMessage i1.flatten initialState) := by
  subst h
  exact ⟨rfl, run_core_eq_flatten i1 initialState⟩

/-- Witness for C7 on a concrete schedule. -/
theorem loop_deterministic_example :
    run ["14:37,2025-12-11,".data, "Thursday\n".data] initialState =
      run ["14:37,2025-12-11,".data, "Thursday\n".data] initialState ∧
    coreOf (run ["14:37,2025-12-11,".data, "Thursday\n".data] initialState) =
      coreOf (readSerialMessage (["14:37,2025-12-11,".data, "Thursday\n".data]).flatten
        initialState) :=
  loop_deterministic ["14:37,2025-12-11,".data, "Thursday\n".data]
    ["14:37,2025-12-11,".data, "Thursday\n".data] rfl

/-! ### A redraw implies a previously received valid message (C8) -/

theorem hasValid_mono_processIncoming (m : List Char) (s : ClockState)
    (h : s.hasValidTime = true) : (processIncoming m s).hasValidTime = true := by
  rw [processIncoming_eq_parseLine]
  cases parseLine m with
  | none => exact h
  | some i => rfl

theorem hasValid_mono_readSerial (b : List Char) (s : ClockState)
    (h : s.hasValidTime = true) : (readSerialMessage b s).hasValidTime = true := by
  induction b generalizing s with
  | nil => exact h
  | cons c rest ih =>
    by_cases hc1 : c = '\n'
    · subst hc1
      simp only [readSerialMessage, if_pos rfl]
      exact ih _ (hasValid_mono_processIncoming _ _ h)
    · by_cases hc2 : c = '\r'
      · subst hc2
        simp only [readSerialMessage, if_neg hc1, if_pos rfl]
        exact ih _ h
      · simp only [readSerialMessage, if_neg hc1, if_neg hc2]
        exact ih _ h

theorem displays_readSerial (b : List Char) (s : ClockState) :
    (readSerialMessage b s).displays = s.displays := by
  induction b generalizing s with
  | nil => rfl
  | cons c rest ih =>
    by_cases hc1 : c = '\n'
    · subst hc1
      have hstep : readSerialMessage ('\n' :: rest) s =
          readSerialMessage rest { processIncoming s.incoming s with incoming := [] } := by
        simp [readSerialMessage]
      rw [hstep, ih]
      rw [processIncoming_eq_parseLine]
      cases parseLine s.incoming <;> rfl
    · by_cases hc2 : c = '\r'
      · subst hc2
        simp only [readSerialMessage, if_neg hc1, if_pos rfl]
        exact ih _
      · simp only [readSerialMessage, if_neg hc1, if_neg hc2]
        exact ih _

theorem inv_loopStep (a : List Char) (st : ClockState)
    (h : st.displays ≠ [] → st.hasValidTime = true) :
    (loopStep a st).displays ≠ [] → (loopStep a st).hasValidTime = true := by
  intro hne
  unfold loopStep at hne ⊢
  by_cases hc : (readSerialMessage a st).needsRedraw &&
      (readSerialMessage a st).hasValidTime
  · simp only [if_pos hc]
    have := (Bool.and_eq_true _ _).mp hc
    simp [updateDisplay, this.2]
  · simp only [if_pos, if_neg hc] at hne ⊢
    rw [displays_readSerial] at hne
    exact hasValid_mono_readSerial a st (h hne)

theorem inv_run (chunks : List (List Char)) (st : ClockState)
    (h : st.displays ≠ [] → st.hasValidTime = true) :
    (run chunks st).displays ≠ [] → (run chunks st).hasValidTime = true := by
  induction chunks generalizing st with
  | nil => exact h
  | cons a rest ih =>
    have h1 : run (a :: rest) st = run rest (loopStep a st) := rfl
    rw [h1]
    exact ih (loopStep a st) (inv_loopStep a st h)

/-- C8: `hasValidTime` starts false, is only ever set (never cleared) by a
successful parse, and `loop` redraws only when `needsRedraw` and
`hasValidTime` both hold; hence any run whose display was ever updated has
processed at least one valid message (`hasValidTime` is true at the end). -/
theorem redraw_requires_valid_message (chunks : List (List Char)) :
    initialState.hasValidTime = false ∧
    (∀ m s, s.hasValidTime = true → (processIncoming m s).hasValidTime = true) ∧
    ((run chunks initialState).displays ≠ [] →
      (run chunks initialState).hasValidTime = true) :=
  ⟨rfl, fun m s h => hasValid_mono_processIncoming m s h,
    inv_run chunks initialState (fun h => absurd rfl h)⟩

/-- Witness for C8: a schedule that does redraw indeed ends with
`hasValidTime` set. -/
theorem redraw_requires_valid_message_example :
    (run ["a,b,c\n".data] initialState).hasValidTime = true :=
  (redraw_requires_valid_message ["a,b,c\n".data]).2.2 (by decide)

/-! ### Carriage returns are discarded (C9) -/

theorem readSerial_filter_cr (bytes : List Char) (st : ClockState) :
    readSerialMessage bytes st =
      readSerialMessage (bytes.filter (fun c => c != '\r')) st := by
  induction bytes generalizing st with
  | nil => rfl
  | cons c rest ih =>
    by_cases hc2 : c = '\r'
    · subst hc2
      have hf : (('\r' :: rest).filter (fun c => c != '\r')) =
          rest.filter (fun c => c != '\r') := by
        simp [List.filter_cons]
      rw [hf]
      have hc1 : ('\r' : Char) ≠ '\n' := by decide
      simp only [readSerialMessage, if_neg hc1, if_pos rfl]
      exact ih st
    · have hf : ((c :: rest).filter (fun c => c != '\r')) =
          c :: rest.filter (fun c => c != '\r') := by
        simp [List.filter_cons, hc2]
      rw [hf]
      by_cases hc1 : c = '\n'
      · subst hc1
        simp only [readSerialMessage, if_pos rfl]
        exact ih _
      · simp only [readSerialMessage, if_neg hc1, if_neg hc2]
        exact ih _

theorem readSerial_incoming_no_cr (bytes : List Char) (st : ClockState)
    (h : '\r' ∉ st.incoming) : '\r' ∉ (readSerialMessage bytes st).incoming := by
  induction bytes generalizing st with
  | nil => exact h
  | cons c rest ih =>
    by_cases hc1 : c = '\n'
    · subst hc1
      simp only [readSerialMessage, if_pos rfl]
      exact ih _ (by simp)
    · by_cases hc2 : c = '\r'
      · subst hc2
        simp only [readSerialMessage, if_neg hc1, if_pos rfl]
        exact ih _ h
      · simp only [readSerialMessage, if_neg hc1, if_neg hc2]
        apply ih
        intro hmem
        rcases List.mem_append.mp hmem with h1 | h1
        · exact h h1
        · exact hc2 (List.mem_singleton.mp h1).symm

/-- C9: `'\r'` bytes are silently discarded while buffering: reading any
byte sequence is identical to reading it with every `'\r'` removed, and the
line buffer never contains a `'\r'`; in particular `"\r\n"`-terminated
messages parse exactly like their `"\n"`-terminated counterparts. -/
theorem carriage_returns_discarded (bytes : List Char) (st : ClockState)
    (h : '\r' ∉ st.incoming) :
    readSerialMessage bytes st =
      readSerialMessage (bytes.filter (fun c => c != '\r')) st ∧
    '\r' ∉ (readSerialMessage bytes st).incoming :=
  ⟨readSerial_filter_cr bytes st, readSerial_incoming_no_cr bytes st h⟩

/-- Witness for C9 on a CRLF-terminated example line. -/
theorem carriage_returns_discarded_example :
    readSerialMessage "14:37,2025-12-11,Thursday\r\n".data initialState =
      readSerialMessage ("14:37,2025-12-11,Thursday\r\n".data.filter (fun c => c != '\r'))
        initialState ∧
    '\r' ∉ (readSerialMessage "14:37,2025-12-11,Thursday\r\n".data initialState).incoming :=
  carriage_returns_discarded "14:37,2025-12-11,Thursday\r\n".data initialState (by decide)

end Clock
